import Mathlib

/-!
Verification of the `cog` bytecode value codec

Shallow embedding of `crates/bytecode/src/{types,opcode,values}.rs`:
the runtime `Value` sum type, the `Type` and `OpCode` tag registries,
the canonical byte encoding (`impl From<Value> for Vec<u8>`) and the
validating decoder (`impl TryFrom<Vec<u8>> for Value`).

Modelling conventions:
* bytes are `Nat` (meaningful values `< 256`); buffers are `List Nat`;
* `isize` (the target is 64-bit) is `Int`, valid when in `[-2^63, 2^63)`;
* `f64` payloads are carried as their 64-bit IEEE-754 bit pattern
  (a `Nat < 2^64`), which is exactly the equality the spec uses for floats;
* a Rust `String` is the sequence of its Unicode scalar values
  (`List Nat`, each a valid scalar); its wire form is UTF-8 bytes;
* Rust `Type` is rendered `Ty` (`Type` is reserved in Lean); constructor
  and error names otherwise follow the source.
-/

deriving instance DecidableEq for Except

namespace Cog

/-- `Type` from `types.rs` (renamed `Ty`: `Type` is a Lean builtin).
Discriminants are `0x20..=0x24`. -/
inductive Ty where
  | Int
  | Float
  | Bool
  | Str
  | Char
deriving DecidableEq, Repr, Fintype

/-- The numeric tag of a `Ty`: the `Type as u8` projection in `values.rs`
(`buffer.push(Type::from(&value) as u8)`), using the discriminants assigned
in `types.rs`. -/
def Ty.tag : Ty → Nat
  | .Int => 0x20
  | .Float => 0x21
  | .Bool => 0x22
  | .Str => 0x23
  | .Char => 0x24

/-- `TypeError` from `types.rs`. -/
inductive TypeError where
  | InvalidType (b : Nat)
deriving DecidableEq, Repr

/-- `impl TryFrom<u8> for Type` in `types.rs`. -/
def decode_type (value : Nat) : Except TypeError Ty :=
  match value with
  | 0x20 => .ok .Int
  | 0x21 => .ok .Float
  | 0x22 => .ok .Bool
  | 0x23 => .ok .Str
  | 0x24 => .ok .Char
  | _ => .error (.InvalidType value)

/-- `OpCode` from `opcode.rs`. Discriminants are `0x10..=0x16`. -/
inductive OpCode where
  | Constant
  | Negate
  | Add
  | Subtract
  | Multiply
  | Divide
  | Return
deriving DecidableEq, Repr, Fintype

/-- The numeric tag of an `OpCode` (the `OpCode as u8` projection). -/
def OpCode.tag : OpCode → Nat
  | .Constant => 0x10
  | .Negate => 0x11
  | .Add => 0x12
  | .Subtract => 0x13
  | .Multiply => 0x14
  | .Divide => 0x15
  | .Return => 0x16

/-- `OpCodeError` from `opcode.rs`. -/
inductive OpCodeError where
  | InvalidOpCode (b : Nat)
deriving DecidableEq, Repr

/-- `impl TryFrom<u8> for OpCode` in `opcode.rs`. -/
def decode_opcode (value : Nat) : Except OpCodeError OpCode :=
  match value with
  | 0x10 => .ok .Constant
  | 0x11 => .ok .Negate
  | 0x12 => .ok .Add
  | 0x13 => .ok .Subtract
  | 0x14 => .ok .Multiply
  | 0x15 => .ok .Divide
  | 0x16 => .ok .Return
  | _ => .error (.InvalidOpCode value)

/-- `Value` from `values.rs`. `Float` carries the 64-bit IEEE-754 bit
pattern of the `f64`; `Str` carries the Unicode scalar values of the string. -/
inductive Value where
  | Int (i : Int)
  | Float (bits : Nat)
  | Bool (b : Bool)
  | Str (s : List Nat)
  | Char (c : Nat)
deriving DecidableEq, Repr

/-- `impl From<&Value> for Type` in `types.rs`: total, pure projection. -/
def typeOf : Value → Ty
  | .Int _ => .Int
  | .Float _ => .Float
  | .Bool _ => .Bool
  | .Str _ => .Str
  | .Char _ => .Char

/-- `ValueError` from `values.rs`. -/
inductive ValueError where
  | InvalidConversion (src tgt : Ty)
  | NoTag
  | IncompatibleSize
  | Type (e : TypeError)
deriving DecidableEq, Repr

/-- `impl TryFrom<Value> for isize` in `values.rs`: narrowing extraction
of the `Int` payload. -/
def isize_try_from : Value → Except ValueError Int
  | .Int i => .ok i
  | v => .error (.InvalidConversion (typeOf v) .Int)

/-- `impl TryFrom<Value> for f64` in `values.rs`: narrowing extraction of
the `Float` payload (as its bit pattern). -/
def f64_try_from : Value → Except ValueError Nat
  | .Float f => .ok f
  | v => .error (.InvalidConversion (typeOf v) .Float)

/-- `w` little-endian bytes of `n` (`to_le_bytes` after truncation to
`w` bytes; each byte is `n / 256^k % 256`). -/
def toLeBytes : Nat → Nat → List Nat
  | 0, _ => []
  | w + 1, n => n % 256 :: toLeBytes w (n / 256)

/-- Read a little-endian byte list back as a `Nat` (`from_le_bytes`). -/
def fromLeBytes : List Nat → Nat
  | [] => 0
  | b :: bs => b + 256 * fromLeBytes bs

/-- A Unicode scalar value: below `0x110000` and not a surrogate. This is
the set of values a Rust `char` can hold. -/
def ValidScalar (c : Nat) : Prop :=
  c < 0x110000 ∧ ¬(0xD800 ≤ c ∧ c ≤ 0xDFFF)

instance (c : Nat) : Decidable (ValidScalar c) := by
  unfold ValidScalar; infer_instance

/-- UTF-8 encoding of one Unicode scalar value (`char::encode_utf8`). -/
def utf8EncodeScalar (c : Nat) : List Nat :=
  if c < 0x80 then
    [c]
  else if c < 0x800 then
    [0xC0 + c / 64, 0x80 + c % 64]
  else if c < 0x10000 then
    [0xE0 + c / 4096, 0x80 + c / 64 % 64, 0x80 + c % 64]
  else
    [0xF0 + c / 262144, 0x80 + c / 4096 % 64, 0x80 + c / 64 % 64, 0x80 + c % 64]

/-- UTF-8 encoding of a scalar sequence (`str::as_bytes` for a string
holding those scalars). -/
def utf8Encode : List Nat → List Nat
  | [] => []
  | c :: cs => utf8EncodeScalar c ++ utf8Encode cs

/-- Is `b` a UTF-8 continuation byte (`0x80..=0xBF`)? -/
def isCont (b : Nat) : Bool :=
  0x80 ≤ b && b ≤ 0xBF

/-- The Unicode replacement character U+FFFD. -/
def replacementChar : Nat := 0xFFFD

/-- `String::from_utf8_lossy`: decode a byte sequence as UTF-8, replacing
each maximal ill-formed subpart with one U+FFFD (Rust substitutes one
replacement character per invalid sequence, where an invalid sequence is
the longest well-formed prefix of a codepoint that cannot be completed,
or a single uninterpretable byte). -/
def utf8DecodeLossy : List Nat → List Nat
  | [] => []
  | b0 :: rest =>
    if b0 < 0x80 then
      -- one-byte (ASCII) sequence
      b0 :: utf8DecodeLossy rest
    else if b0 < 0xC2 then
      -- stray continuation byte, or overlong lead 0xC0/0xC1
      replacementChar :: utf8DecodeLossy rest
    else if b0 < 0xE0 then
      -- two-byte sequence
      match rest with
      | [] => [replacementChar]
      | b1 :: rest2 =>
        if isCont b1 then
          ((b0 - 0xC0) * 64 + (b1 - 0x80)) :: utf8DecodeLossy rest2
        else
          replacementChar :: utf8DecodeLossy (b1 :: rest2)
    else if b0 < 0xF0 then
      -- three-byte sequence; second-byte range depends on the lead
      match rest with
      | [] => [replacementChar]
      | b1 :: rest2 =>
        if (if b0 = 0xE0 then 0xA0 ≤ b1 && b1 ≤ 0xBF
            else if b0 = 0xED then 0x80 ≤ b1 && b1 ≤ 0x9F
            else isCont b1) then
          match rest2 with
          | [] => [replacementChar]
          | b2 :: rest3 =>
            if isCont b2 then
              ((b0 - 0xE0) * 4096 + (b1 - 0x80) * 64 + (b2 - 0x80))
                :: utf8DecodeLossy rest3
            else
              replacementChar :: utf8DecodeLossy (b2 :: rest3)
        else
          replacementChar :: utf8DecodeLossy (b1 :: rest2)
    else if b0 < 0xF5 then
      -- four-byte sequence; second-byte range depends on the lead
      match rest with
      | [] => [replacementChar]
      | b1 :: rest2 =>
        if (if b0 = 0xF0 then 0x90 ≤ b1 && b1 ≤ 0xBF
            else if b0 = 0xF4 then 0x80 ≤ b1 && b1 ≤ 0x8F
            else isCont b1) then
          match rest2 with
          | [] => [replacementChar]
          | b2 :: rest3 =>
            if isCont b2 then
              match rest3 with
              | [] => [replacementChar]
              | b3 :: rest4 =>
                if isCont b3 then
                  ((b0 - 0xF0) * 262144 + (b1 - 0x80) * 4096
                      + (b2 - 0x80) * 64 + (b3 - 0x80))
                    :: utf8DecodeLossy rest4
                else
                  replacementChar :: utf8DecodeLossy (b3 :: rest4)
            else
              replacementChar :: utf8DecodeLossy (b2 :: rest3)
        else
          replacementChar :: utf8DecodeLossy (b1 :: rest2)
    else
      -- 0xF5..=0xFF can never start a sequence
      replacementChar :: utf8DecodeLossy rest
termination_by bs => bs.length
decreasing_by all_goals simp <;> omega

/-- `impl From<Value> for Vec<u8>` in `values.rs`: one tag byte, then the
variant payload. `Int` goes through `as i64` (identity on a 64-bit
target) and `to_le_bytes` of its twos complement; the `Str` length
prefix is `bytes.len() as u32`, i.e. the length mod `2^32`; `Char` is
`val as u8`, i.e. the scalar mod 256. -/
def encode (value : Value) : List Nat :=
  Ty.tag (typeOf value) ::
    match value with
    | .Int val => toLeBytes 8 (Int.toNat (val % (2 ^ 64 : Int)))
    | .Float val => toLeBytes 8 val
    | .Bool val => [if val then 1 else 0]
    | .Str val =>
      let bytes := utf8Encode val
      toLeBytes 4 (bytes.length % 2 ^ 32) ++ bytes
    | .Char val => [val % 256]

/-- `impl TryFrom<Vec<u8>> for Value` in `values.rs`: reject an empty
buffer, resolve the tag, then enforce the per-kind payload size before
reading the payload. `data` plays the role of `value[1..]`, so
`data.length` is the `data_len = value.len() - 1` of the source. -/
def decode (value : List Nat) : Except ValueError Value :=
  match value with
  | [] => .error .NoTag
  | tag :: data =>
    match decode_type tag with
    | .error e => .error (.Type e)
    | .ok t =>
      match t with
      | .Int =>
        if data.length ≠ 8 then .error .IncompatibleSize
        else
          let n := fromLeBytes data
          .ok (.Int (if n < 2 ^ 63 then (n : Int) else (n : Int) - 2 ^ 64))
      | .Float =>
        if data.length ≠ 8 then .error .IncompatibleSize
        else .ok (.Float (fromLeBytes data))
      | .Bool =>
        if data.length ≠ 1 then .error .IncompatibleSize
        else .ok (.Bool (data.headD 0 != 0))
      | .Str =>
        if data.length < 4 then .error .IncompatibleSize
        else
          let len := fromLeBytes (data.take 4)
          if data.length ≠ len + 4 then .error .IncompatibleSize
          else .ok (.Str (utf8DecodeLossy (data.drop 4)))
      | .Char =>
        if data.length ≠ 1 then .error .IncompatibleSize
        else .ok (.Char (data.headD 0))

/-- Which `Value`s the Rust type can actually represent: `isize` payloads
fit in 64 bits, `Float` bit patterns in 64 bits, and `Str`/`Char`
payloads are genuine Unicode scalar values. -/
def Value.Valid : Value → Prop
  | .Int i => -(2 ^ 63) ≤ i ∧ i < 2 ^ 63
  | .Float bits => bits < 2 ^ 64
  | .Bool _ => True
  | .Str s => ∀ c ∈ s, ValidScalar c
  | .Char c => ValidScalar c

instance (v : Value) : Decidable v.Valid := by
  cases v <;> (unfold Value.Valid; infer_instance)

end Cog

namespace Cog

theorem toLeBytes_length (w n : Nat) : (toLeBytes w n).length = w := by
  induction w generalizing n with
  | zero => rfl
  | succ w ih => simp [toLeBytes, ih]

theorem mod_mul_decomp (n K : Nat) (hK : 0 < K) :
    n % (256 * K) = n % 256 + 256 * (n / 256 % K) := by
  have h1 : 256 * (n / 256 % K) + n % 256 < 256 * K := by
    have hx : n / 256 % K < K := Nat.mod_lt _ hK
    have hr : n % 256 < 256 := Nat.mod_lt _ (by norm_num)
    calc 256 * (n / 256 % K) + n % 256 < 256 * (n / 256 % K) + 256 := by omega
      _ = 256 * (n / 256 % K + 1) := by ring
      _ ≤ 256 * K := Nat.mul_le_mul_left _ (by omega)
  have hn : n = 256 * K * (n / 256 / K) + (256 * (n / 256 % K) + n % 256) := by
    conv_lhs => rw [← Nat.div_add_mod n 256, ← Nat.div_add_mod (n / 256) K]
    ring
  have h2 : n % (256 * K) = (256 * (n / 256 % K) + n % 256) % (256 * K) := by
    conv_lhs => rw [hn]
    rw [Nat.mul_add_mod]
  rw [h2, Nat.mod_eq_of_lt h1]
  omega

theorem fromLeBytes_toLeBytes (w n : Nat) :
    fromLeBytes (toLeBytes w n) = n % 256 ^ w := by
  induction w generalizing n with
  | zero => simp [toLeBytes, fromLeBytes, Nat.mod_one]
  | succ w ih =>
    rw [toLeBytes, fromLeBytes, ih, pow_succ, mul_comm (256 ^ w) 256,
      mod_mul_decomp n (256 ^ w) (Nat.pos_pow_of_pos w (by norm_num))]

end Cog

namespace Cog

theorem isCont_true_iff (b : Nat) : isCont b = true ↔ 0x80 ≤ b ∧ b ≤ 0xBF := by
  simp [isCont]

set_option maxRecDepth 4000 in
theorem utf8DecodeLossy_encodeScalar (c : Nat) (h : ValidScalar c) (rest : List Nat) :
    utf8DecodeLossy (utf8EncodeScalar c ++ rest) = c :: utf8DecodeLossy rest := by
  obtain ⟨hlt, hsur⟩ := h
  by_cases h1 : c < 0x80
  · simp only [utf8EncodeScalar, if_pos h1, List.cons_append, List.nil_append]
    rw [utf8DecodeLossy.eq_def]
    simp [h1]
  · by_cases h2 : c < 0x800
    · simp only [utf8EncodeScalar, if_neg h1, if_pos h2, List.cons_append, List.nil_append]
      rw [utf8DecodeLossy.eq_def]
      simp only []
      rw [if_neg (by omega), if_neg (by omega), if_pos (by omega),
        if_pos (by rw [isCont_true_iff]; omega)]
      refine congrArg (fun x => x :: utf8DecodeLossy rest) ?_
      omega
    · by_cases h3 : c < 0x10000
      · simp only [utf8EncodeScalar, if_neg h1, if_neg h2, if_pos h3, List.cons_append,
          List.nil_append]
        rw [utf8DecodeLossy.eq_def]
        simp only []
        rw [if_neg (by omega), if_neg (by omega), if_neg (by omega), if_pos (by omega)]
        have hcond : (if 0xE0 + c / 4096 = 0xE0 then 0xA0 ≤ 0x80 + c / 64 % 64 && 0x80 + c / 64 % 64 ≤ 0xBF
            else if 0xE0 + c / 4096 = 0xED then 0x80 ≤ 0x80 + c / 64 % 64 && 0x80 + c / 64 % 64 ≤ 0x9F
            else isCont (0x80 + c / 64 % 64)) = true := by
          split
          · simp only [Bool.and_eq_true, decide_eq_true_eq]; omega
          · split
            · simp only [Bool.and_eq_true, decide_eq_true_eq]; omega
            · rw [isCont_true_iff]; omega
        rw [if_pos hcond, if_pos (by rw [isCont_true_iff]; omega)]
        refine congrArg (fun x => x :: utf8DecodeLossy rest) ?_
        omega
      · simp only [utf8EncodeScalar, if_neg h1, if_neg h2, if_neg h3, List.cons_append,
          List.nil_append]
        rw [utf8DecodeLossy.eq_def]
        simp only []
        rw [if_neg (by omega), if_neg (by omega), if_neg (by omega), if_neg (by omega),
          if_pos (by omega)]
        have hcond : (if 0xF0 + c / 262144 = 0xF0 then 0x90 ≤ 0x80 + c / 4096 % 64 && 0x80 + c / 4096 % 64 ≤ 0xBF
            else if 0xF0 + c / 262144 = 0xF4 then 0x80 ≤ 0x80 + c / 4096 % 64 && 0x80 + c / 4096 % 64 ≤ 0x8F
            else isCont (0x80 + c / 4096 % 64)) = true := by
          split
          · simp only [Bool.and_eq_true, decide_eq_true_eq]; omega
          · split
            · simp only [Bool.and_eq_true, decide_eq_true_eq]; omega
            · rw [isCont_true_iff]; omega
        rw [if_pos hcond, if_pos (by rw [isCont_true_iff]; omega),
          if_pos (by rw [isCont_true_iff]; omega)]
        refine congrArg (fun x => x :: utf8DecodeLossy rest) ?_
        omega

end Cog

namespace Cog

theorem utf8DecodeLossy_utf8Encode (s : List Nat) (h : ∀ c ∈ s, ValidScalar c) :
    utf8DecodeLossy (utf8Encode s) = s := by
  induction s with
  | nil => simp [utf8Encode, utf8DecodeLossy]
  | cons c cs ih =>
    rw [utf8Encode, utf8DecodeLossy_encodeScalar c (h c (by simp)) _,
      ih (fun x hx => h x (by simp [hx]))]

theorem utf8Encode_decode_or_replacement (bs : List Nat) :
    utf8Encode (utf8DecodeLossy bs) = bs ∨ replacementChar ∈ utf8DecodeLossy bs := by
  induction bs using utf8DecodeLossy.induct with
  | case1 =>
    left; simp [utf8Encode, utf8DecodeLossy]
  | case2 b bs hb ih =>
    have hstep : utf8DecodeLossy (b :: bs) = b :: utf8DecodeLossy bs := by
      rw [utf8DecodeLossy.eq_def]
      simp only []
      rw [if_pos hb]
    rcases ih with ih | ih
    · left
      rw [hstep, utf8Encode, ih, utf8EncodeScalar, if_pos hb]
      rfl
    · right
      rw [hstep]
      exact List.mem_cons_of_mem _ ih
  | case3 b bs h1 h2 ih =>
    have hstep : utf8DecodeLossy (b :: bs) = replacementChar :: utf8DecodeLossy bs := by
      rw [utf8DecodeLossy.eq_def]
      simp only []
      rw [if_neg h1, if_pos h2]
    right
    rw [hstep]
    exact List.mem_cons_self _ _
  | case4 b h1 h2 h3 =>
    right
    rw [utf8DecodeLossy.eq_def]
    simp only []
    rw [if_neg h1, if_neg h2, if_pos h3]
    exact List.mem_cons_self _ _
  | case5 b h1 h2 h3 b1 bs hc ih =>
    have hstep : utf8DecodeLossy (b :: b1 :: bs)
        = ((b - 0xC0) * 64 + (b1 - 0x80)) :: utf8DecodeLossy bs := by
      rw [utf8DecodeLossy.eq_def]
      simp only []
      rw [if_neg h1, if_neg h2, if_pos h3, if_pos hc]
    rw [isCont_true_iff] at hc
    have henc : utf8EncodeScalar ((b - 0xC0) * 64 + (b1 - 0x80)) = [b, b1] := by
      rw [utf8EncodeScalar, if_neg (by omega), if_pos (by omega)]
      simp only [List.cons.injEq, and_true]
      exact ⟨by omega, by omega⟩
    rcases ih with ih | ih
    · left
      rw [hstep, utf8Encode, ih, henc]
      rfl
    · right
      rw [hstep]
      exact List.mem_cons_of_mem _ ih
  | case6 b h1 h2 h3 b1 bs hc ih =>
    have hstep : utf8DecodeLossy (b :: b1 :: bs)
        = replacementChar :: utf8DecodeLossy (b1 :: bs) := by
      rw [utf8DecodeLossy.eq_def]
      simp only []
      rw [if_neg h1, if_neg h2, if_pos h3, if_neg hc]
    right
    rw [hstep]
    exact List.mem_cons_self _ _
  | case7 b h1 h2 h3 h4 =>
    right
    rw [utf8DecodeLossy.eq_def]
    simp only []
    rw [if_neg h1, if_neg h2, if_neg h3, if_pos h4]
    exact List.mem_cons_self _ _
  | case8 b h1 h2 h3 h4 b1 hcond =>
    simp only [dite_eq_ite] at hcond
    right
    rw [utf8DecodeLossy.eq_def]
    simp only []
    rw [if_neg h1, if_neg h2, if_neg h3, if_pos h4, if_pos hcond]
    exact List.mem_cons_self _ _
  | case9 b h1 h2 h3 h4 b1 hcond b2 bs hc2 ih =>
    simp only [dite_eq_ite] at hcond
    have hstep : utf8DecodeLossy (b :: b1 :: b2 :: bs)
        = ((b - 0xE0) * 4096 + (b1 - 0x80) * 64 + (b2 - 0x80)) :: utf8DecodeLossy bs := by
      rw [utf8DecodeLossy.eq_def]
      simp only []
      rw [if_neg h1, if_neg h2, if_neg h3, if_pos h4, if_pos hcond, if_pos hc2]
    rw [isCont_true_iff] at hc2
    have hb1 : 0x80 ≤ b1 ∧ b1 ≤ 0xBF ∧ 0x800 ≤ (b - 0xE0) * 4096 + (b1 - 0x80) * 64 + (b2 - 0x80) := by
      by_cases hA : b = 224
      · rw [if_pos hA] at hcond
        simp only [Bool.and_eq_true, decide_eq_true_eq] at hcond
        omega
      · rw [if_neg hA] at hcond
        by_cases hB : b = 237
        · rw [if_pos hB] at hcond
          simp only [Bool.and_eq_true, decide_eq_true_eq] at hcond
          omega
        · rw [if_neg hB, isCont_true_iff] at hcond
          omega
    have henc : utf8EncodeScalar ((b - 0xE0) * 4096 + (b1 - 0x80) * 64 + (b2 - 0x80))
        = [b, b1, b2] := by
      rw [utf8EncodeScalar, if_neg (by omega), if_neg (by omega), if_pos (by omega)]
      simp only [List.cons.injEq, and_true]
      exact ⟨by omega, by omega, by omega⟩
    rcases ih with ih | ih
    · left
      rw [hstep, utf8Encode, ih, henc]
      rfl
    · right
      rw [hstep]
      exact List.mem_cons_of_mem _ ih
  | case10 b h1 h2 h3 h4 b1 hcond b2 bs hc2 ih =>
    simp only [dite_eq_ite] at hcond
    have hstep : utf8DecodeLossy (b :: b1 :: b2 :: bs)
        = replacementChar :: utf8DecodeLossy (b2 :: bs) := by
      rw [utf8DecodeLossy.eq_def]
      simp only []
      rw [if_neg h1, if_neg h2, if_neg h3, if_pos h4, if_pos hcond, if_neg hc2]
    right
    rw [hstep]
    exact List.mem_cons_self _ _
  | case11 b h1 h2 h3 h4 b1 bs hcond ih =>
    simp only [dite_eq_ite] at hcond
    have hstep : utf8DecodeLossy (b :: b1 :: bs)
        = replacementChar :: utf8DecodeLossy (b1 :: bs) := by
      rw [utf8DecodeLossy.eq_def]
      simp only []
      rw [if_neg h1, if_neg h2, if_neg h3, if_pos h4, if_neg hcond]
    right
    rw [hstep]
    exact List.mem_cons_self _ _
  | case12 b h1 h2 h3 h4 h5 =>
    right
    rw [utf8DecodeLossy.eq_def]
    simp only []
    rw [if_neg h1, if_neg h2, if_neg h3, if_neg h4, if_pos h5]
    exact List.mem_cons_self _ _
  | case13 b h1 h2 h3 h4 h5 b1 hcond =>
    simp only [dite_eq_ite] at hcond
    right
    rw [utf8DecodeLossy.eq_def]
    simp only []
    rw [if_neg h1, if_neg h2, if_neg h3, if_neg h4, if_pos h5, if_pos hcond]
    exact List.mem_cons_self _ _
  | case14 b h1 h2 h3 h4 h5 b1 hcond b2 hc2 =>
    simp only [dite_eq_ite] at hcond
    right
    rw [utf8DecodeLossy.eq_def]
    simp only []
    rw [if_neg h1, if_neg h2, if_neg h3, if_neg h4, if_pos h5, if_pos hcond, if_pos hc2]
    exact List.mem_cons_self _ _
  | case15 b h1 h2 h3 h4 h5 b1 hcond b2 hc2 b3 bs hc3 ih =>
    simp only [dite_eq_ite] at hcond
    have hstep : utf8DecodeLossy (b :: b1 :: b2 :: b3 :: bs)
        = ((b - 0xF0) * 262144 + (b1 - 0x80) * 4096 + (b2 - 0x80) * 64 + (b3 - 0x80))
            :: utf8DecodeLossy bs := by
      rw [utf8DecodeLossy.eq_def]
      simp only []
      rw [if_neg h1, if_neg h2, if_neg h3, if_neg h4, if_pos h5, if_pos hcond, if_pos hc2,
        if_pos hc3]
    rw [isCont_true_iff] at hc2 hc3
    have hb1 : 0x80 ≤ b1 ∧ b1 ≤ 0xBF
        ∧ 0x10000 ≤ (b - 0xF0) * 262144 + (b1 - 0x80) * 4096 + (b2 - 0x80) * 64 + (b3 - 0x80) := by
      by_cases hA : b = 240
      · rw [if_pos hA] at hcond
        simp only [Bool.and_eq_true, decide_eq_true_eq] at hcond
        omega
      · rw [if_neg hA] at hcond
        by_cases hB : b = 244
        · rw [if_pos hB] at hcond
          simp only [Bool.and_eq_true, decide_eq_true_eq] at hcond
          omega
        · rw [if_neg hB, isCont_true_iff] at hcond
          omega
    have henc : utf8EncodeScalar
          ((b - 0xF0) * 262144 + (b1 - 0x80) * 4096 + (b2 - 0x80) * 64 + (b3 - 0x80))
        = [b, b1, b2, b3] := by
      rw [utf8EncodeScalar, if_neg (by omega), if_neg (by omega), if_neg (by omega)]
      simp only [List.cons.injEq, and_true]
      exact ⟨by omega, by omega, by omega, by omega⟩
    rcases ih with ih | ih
    · left
      rw [hstep, utf8Encode, ih, henc]
      rfl
    · right
      rw [hstep]
      exact List.mem_cons_of_mem _ ih
  | case16 b h1 h2 h3 h4 h5 b1 hcond b2 hc2 b3 bs hc3 ih =>
    simp only [dite_eq_ite] at hcond
    have hstep : utf8DecodeLossy (b :: b1 :: b2 :: b3 :: bs)
        = replacementChar :: utf8DecodeLossy (b3 :: bs) := by
      rw [utf8DecodeLossy.eq_def]
      simp only []
      rw [if_neg h1, if_neg h2, if_neg h3, if_neg h4, if_pos h5, if_pos hcond, if_pos hc2,
        if_neg hc3]
    right
    rw [hstep]
    exact List.mem_cons_self _ _
  | case17 b h1 h2 h3 h4 h5 b1 hcond b2 bs hc2 ih =>
    simp only [dite_eq_ite] at hcond
    have hstep : utf8DecodeLossy (b :: b1 :: b2 :: bs)
        = replacementChar :: utf8DecodeLossy (b2 :: bs) := by
      rw [utf8DecodeLossy.eq_def]
      simp only []
      rw [if_neg h1, if_neg h2, if_neg h3, if_neg h4, if_pos h5, if_pos hcond, if_neg hc2]
    right
    rw [hstep]
    exact List.mem_cons_self _ _
  | case18 b h1 h2 h3 h4 h5 b1 bs hcond ih =>
    simp only [dite_eq_ite] at hcond
    have hstep : utf8DecodeLossy (b :: b1 :: bs)
        = replacementChar :: utf8DecodeLossy (b1 :: bs) := by
      rw [utf8DecodeLossy.eq_def]
      simp only []
      rw [if_neg h1, if_neg h2, if_neg h3, if_neg h4, if_pos h5, if_neg hcond]
    right
    rw [hstep]
    exact List.mem_cons_self _ _
  | case19 b bs h1 h2 h3 h4 h5 ih =>
    have hstep : utf8DecodeLossy (b :: bs) = replacementChar :: utf8DecodeLossy bs := by
      rw [utf8DecodeLossy.eq_def]
      simp only []
      rw [if_neg h1, if_neg h2, if_neg h3, if_neg h4, if_neg h5]
    right
    rw [hstep]
    exact List.mem_cons_self _ _

end Cog

/-! ## Frame lemmas for `Str` buffers -/

namespace Cog

theorem decode_str_frame (bytes : List Nat) (h : bytes.length < 2 ^ 32) :
    decode (0x23 :: (toLeBytes 4 (bytes.length % 2 ^ 32) ++ bytes))
      = .ok (.Str (utf8DecodeLossy bytes)) := by
  have hmod : bytes.length % 2 ^ 32 = bytes.length := Nat.mod_eq_of_lt h
  have hlen4 : (toLeBytes 4 (bytes.length % 2 ^ 32)).length = 4 := toLeBytes_length 4 _
  have htake : (toLeBytes 4 (bytes.length % 2 ^ 32) ++ bytes).take 4
      = toLeBytes 4 (bytes.length % 2 ^ 32) := by
    conv_lhs => rw [← hlen4]
    exact List.take_left _ _
  have hdrop : (toLeBytes 4 (bytes.length % 2 ^ 32) ++ bytes).drop 4 = bytes := by
    conv_lhs => rw [← hlen4]
    exact List.drop_left _ _
  have hfrom : fromLeBytes (toLeBytes 4 (bytes.length % 2 ^ 32)) = bytes.length := by
    rw [fromLeBytes_toLeBytes, hmod]
    have h4 : (256 : Nat) ^ 4 = 2 ^ 32 := by norm_num
    rw [h4]
    exact Nat.mod_eq_of_lt h
  simp only [decode, decode_type, List.length_append, hlen4]
  rw [if_neg (by omega), htake, hfrom, if_neg (by omega), hdrop]

end Cog

/-! ## Claims -/

namespace Cog

/-- C5: decoding the empty byte buffer returns the missing-tag error
(`ValueError::NoTag`); it never returns a `Value`. -/
theorem decode_empty_buffer : decode [] = .error .NoTag := rfl

set_option maxRecDepth 8000 in
/-- C2: `Type::try_from` succeeds exactly on bytes `0x20..=0x24`, its result
projects back to the input byte (so the five tags map to `Int`, `Float`,
`Bool`, `Str`, `Char` respectively), and any other byte yields
`InvalidType` carrying that byte; symmetrically `OpCode::try_from` succeeds
exactly on `0x10..=0x16` and otherwise yields `InvalidOpCode` carrying the
byte. -/
theorem tag_totality :
    (∀ b < 256, (∃ t : Ty, decode_type b = .ok t) ↔ 0x20 ≤ b ∧ b ≤ 0x24)
    ∧ (∀ b < 256, ∀ t : Ty, decode_type b = .ok t → Ty.tag t = b)
    ∧ (∀ b < 256, ¬(0x20 ≤ b ∧ b ≤ 0x24) → decode_type b = .error (.InvalidType b))
    ∧ (∀ b < 256, (∃ op : OpCode, decode_opcode b = .ok op) ↔ 0x10 ≤ b ∧ b ≤ 0x16)
    ∧ (∀ b < 256, ∀ op : OpCode, decode_opcode b = .ok op → OpCode.tag op = b)
    ∧ (∀ b < 256, ¬(0x10 ≤ b ∧ b ≤ 0x16) → decode_opcode b = .error (.InvalidOpCode b)) :=
  ⟨by decide, by decide, by decide, by decide, by decide, by decide⟩

/-- Witness for C2 at the concrete bytes `0x22` and `0xFF`. -/
theorem tag_totality_witness :
    ((∃ t : Ty, decode_type 0x22 = .ok t) ↔ 0x20 ≤ 0x22 ∧ 0x22 ≤ 0x24)
    ∧ decode_type 0xFF = .error (.InvalidType 0xFF) :=
  ⟨tag_totality.1 0x22 (by decide),
    tag_totality.2.2.1 0xFF (by decide) (by decide)⟩

/-- C3: encoding emits the one-byte type tag of the value first, then the
variant payload; `Int(-1)` encodes to the 9 bytes
`[0x20, 0xFF × 8]` and `Str("")` to the 5 bytes `[0x23, 0x00 × 4]`. -/
theorem encode_tag_first :
    (∀ v : Value, (encode v).head? = some (Ty.tag (typeOf v)))
    ∧ encode (.Int (-1)) = [0x20, 0xFF, 0xFF, 0xFF, 0xFF, 0xFF, 0xFF, 0xFF, 0xFF]
    ∧ encode (.Str []) = [0x23, 0x00, 0x00, 0x00, 0x00] :=
  ⟨fun _ => rfl, rfl, rfl⟩

set_option maxRecDepth 8000 in
/-- C6: decoding `[0x22, b]` always succeeds, giving `Bool(true)` for any
nonzero `b` and `Bool(false)` for zero, while encoding emits only payload
`0x01` for true and `0x00` for false. -/
theorem bool_decode_permissive :
    (∀ b < 256, decode [0x22, b] = .ok (.Bool (b != 0)))
    ∧ encode (.Bool true) = [0x22, 0x01]
    ∧ encode (.Bool false) = [0x22, 0x00] :=
  ⟨by decide, rfl, rfl⟩

/-- Witness for C6 at the concrete byte `0x07`. -/
theorem bool_decode_permissive_witness :
    decode [0x22, 0x07] = .ok (.Bool true) :=
  bool_decode_permissive.1 0x07 (by decide)

/-- C8: `isize::try_from` succeeds exactly on `Int` values (returning the
payload) and `f64::try_from` exactly on `Float` values; in every other
case each fails with `InvalidConversion` naming the actual type of the value
and the requested type. -/
theorem narrowing_extraction (v : Value) :
    (∀ i : Int, isize_try_from v = .ok i ↔ v = .Int i)
    ∧ ((∀ i : Int, v ≠ .Int i) →
        isize_try_from v = .error (.InvalidConversion (typeOf v) .Int))
    ∧ (∀ f : Nat, f64_try_from v = .ok f ↔ v = .Float f)
    ∧ ((∀ f : Nat, v ≠ .Float f) →
        f64_try_from v = .error (.InvalidConversion (typeOf v) .Float)) := by
  cases v <;>
    simp [isize_try_from, f64_try_from, typeOf, eq_comm]

/-- Witness for C8 at the concrete value `Bool(true)`. -/
theorem narrowing_extraction_witness :
    isize_try_from (.Bool true) = .error (.InvalidConversion .Bool .Int) :=
  (narrowing_extraction (.Bool true)).2.1 (fun _ h => Value.noConfusion h)

end Cog

namespace Cog

/-- C4: with a valid tag byte up front, decode enforces the per-kind
payload size: `Int`/`Float` require exactly 8 payload bytes, `Bool`/`Char`
exactly 1, and `Str` at least 4 plus a length prefix equal to the number
of bytes that follow it; every violation is `IncompatibleSize`. -/
theorem size_enforcement (data : List Nat) :
    (data.length ≠ 8 →
      decode (0x20 :: data) = .error .IncompatibleSize
      ∧ decode (0x21 :: data) = .error .IncompatibleSize)
    ∧ (data.length ≠ 1 →
      decode (0x22 :: data) = .error .IncompatibleSize
      ∧ decode (0x24 :: data) = .error .IncompatibleSize)
    ∧ (data.length < 4 → decode (0x23 :: data) = .error .IncompatibleSize)
    ∧ (4 ≤ data.length → fromLeBytes (data.take 4) ≠ data.length - 4 →
      decode (0x23 :: data) = .error .IncompatibleSize) := by
  refine ⟨fun h => ⟨?_, ?_⟩, fun h => ⟨?_, ?_⟩, fun h => ?_, fun h4 hne => ?_⟩
  · simp only [decode, decode_type]
    rw [if_pos h]
  · simp only [decode, decode_type]
    rw [if_pos h]
  · simp only [decode, decode_type]
    rw [if_pos h]
  · simp only [decode, decode_type]
    rw [if_pos h]
  · simp only [decode, decode_type]
    rw [if_pos h]
  · simp only [decode, decode_type]
    rw [if_neg (by omega), if_pos (by omega)]

/-- Witness for C4 at the concrete buffer `[0x22, 1, 2, 3]` (spec
scenario 3: a Bool tag with 3 payload bytes). -/
theorem size_enforcement_witness :
    decode [0x22, 1, 2, 3] = .error .IncompatibleSize :=
  ((size_enforcement [1, 2, 3]).2.1 (by decide)).1

/-- C7: a `Str` buffer whose length prefix matches the payload length
decodes successfully for every payload, valid UTF-8 or not; the result is
the lossy decoding of the payload, which either re-encodes to the exact
payload (the valid case) or contains the replacement character U+FFFD. -/
theorem lossy_str_decode (payload : List Nat) (h : payload.length < 2 ^ 32) :
    decode (0x23 :: (toLeBytes 4 payload.length ++ payload))
      = .ok (.Str (utf8DecodeLossy payload))
    ∧ (utf8Encode (utf8DecodeLossy payload) = payload
        ∨ replacementChar ∈ utf8DecodeLossy payload) := by
  constructor
  · have hmod : payload.length % 2 ^ 32 = payload.length := Nat.mod_eq_of_lt h
    rw [← hmod]
    exact decode_str_frame payload h
  · exact utf8Encode_decode_or_replacement payload

/-- Witness for C7 at the ill-formed one-byte payload `0xFF`. -/
theorem lossy_str_decode_witness :
    decode [0x23, 1, 0, 0, 0, 0xFF] = .ok (.Str [replacementChar]) := by
  have h := (lossy_str_decode [0xFF] (by norm_num)).1
  rw [show toLeBytes 4 (List.length [0xFF]) ++ [0xFF] = [1, 0, 0, 0, 0xFF] from rfl] at h
  rw [h]
  rw [show utf8DecodeLossy [0xFF] = [replacementChar] by
    rw [utf8DecodeLossy.eq_def]
    norm_num
    rw [utf8DecodeLossy.eq_def]]

end Cog

namespace Cog

theorem utf8Encode_replicate_ascii (n : Nat) :
    utf8Encode (List.replicate n 97) = List.replicate n 97 := by
  induction n with
  | zero => rfl
  | succ n ih => simp [List.replicate_succ, utf8Encode, utf8EncodeScalar, ih]

/-- C9: the length prefix emitted for a `Str` is the UTF-8 byte length of
the string reduced modulo `2^32` (the `as u32` cast); hence when the byte
length is `2^32` or more, the prefix differs from the number of payload
bytes that actually follow it. -/
theorem str_len_mod (s : List Nat) :
    fromLeBytes (((encode (.Str s)).drop 1).take 4) = (utf8Encode s).length % 2 ^ 32
    ∧ (2 ^ 32 ≤ (utf8Encode s).length →
        fromLeBytes (((encode (.Str s)).drop 1).take 4)
          ≠ ((encode (.Str s)).drop 5).length) := by
  have hlen4 : (toLeBytes 4 ((utf8Encode s).length % 2 ^ 32)).length = 4 :=
    toLeBytes_length 4 _
  have henc : encode (.Str s)
      = 0x23 :: (toLeBytes 4 ((utf8Encode s).length % 2 ^ 32) ++ utf8Encode s) := rfl
  have hdrop1 : (encode (.Str s)).drop 1
      = toLeBytes 4 ((utf8Encode s).length % 2 ^ 32) ++ utf8Encode s := by
    rw [henc]; rfl
  have htake : ((encode (.Str s)).drop 1).take 4
      = toLeBytes 4 ((utf8Encode s).length % 2 ^ 32) := by
    rw [hdrop1]
    conv_lhs => rw [← hlen4]
    exact List.take_left _ _
  have hfrom : fromLeBytes (((encode (.Str s)).drop 1).take 4)
      = (utf8Encode s).length % 2 ^ 32 := by
    rw [htake, fromLeBytes_toLeBytes]
    have h4 : (256 : Nat) ^ 4 = 2 ^ 32 := by norm_num
    rw [h4]
    omega
  refine ⟨hfrom, fun hbig => ?_⟩
  have hdrop5 : (encode (.Str s)).drop 5 = utf8Encode s := by
    rw [henc]
    have : (0x23 :: (toLeBytes 4 ((utf8Encode s).length % 2 ^ 32) ++ utf8Encode s)).drop 5
        = (toLeBytes 4 ((utf8Encode s).length % 2 ^ 32) ++ utf8Encode s).drop 4 := rfl
    rw [this]
    conv_lhs => rw [← hlen4]
    exact List.drop_left _ _
  rw [hfrom, hdrop5]
  have : (utf8Encode s).length % 2 ^ 32 < 2 ^ 32 := Nat.mod_lt _ (by norm_num)
  omega

/-- Witness for C9: a 2^32-byte ASCII string, whose emitted length prefix
(0) cannot match the actual payload length. -/
theorem str_len_mod_witness :
    fromLeBytes (((encode (.Str (List.replicate (2 ^ 32) 97))).drop 1).take 4)
      ≠ ((encode (.Str (List.replicate (2 ^ 32) 97))).drop 5).length := by
  refine (str_len_mod _).2 ?_
  rw [utf8Encode_replicate_ascii, List.length_replicate]

end Cog

namespace Cog

/-- C1 counterexample: `Char(0x100)` is a representable value, but
its encoding truncates the scalar to one byte, so decoding returns
`Char(0)`, not the original value. -/
theorem roundtrip_counterexample :
    Value.Valid (.Char 0x100)
    ∧ decode (encode (.Char 0x100)) = .ok (.Char 0)
    ∧ decode (encode (.Char 0x100)) ≠ .ok (.Char 0x100) := by
  decide

/-- C1 (amended): decoding the encoding returns `Ok` of the original value
for every representable value whose `Char` scalar fits in one byte
(`< 256`) and whose `Str` payload is under `2^32` UTF-8 bytes; `Float`
payloads are bit patterns, so equality is exact bit-pattern equality. -/
theorem roundtrip_amended (v : Value) (hv : v.Valid)
    (hchar : ∀ c, v = .Char c → c < 256)
    (hstr : ∀ s, v = .Str s → (utf8Encode s).length < 2 ^ 32) :
    decode (encode v) = .ok v := by
  cases v with
  | Int i =>
    obtain ⟨h1, h2⟩ := hv
    show decode (0x20 :: toLeBytes 8 (Int.toNat (i % (2 ^ 64 : Int)))) = .ok (.Int i)
    simp only [decode, decode_type]
    rw [if_neg (by simp [toLeBytes_length]), fromLeBytes_toLeBytes]
    have h256 : (256 : Nat) ^ 8 = 2 ^ 64 := by norm_num
    have hlt : Int.toNat (i % (2 ^ 64 : Int)) < 2 ^ 64 := by omega
    rw [h256, Nat.mod_eq_of_lt hlt]
    simp only [Except.ok.injEq, Value.Int.injEq]
    split <;> omega
  | Float bits =>
    show decode (0x21 :: toLeBytes 8 bits) = .ok (.Float bits)
    simp only [decode, decode_type]
    rw [if_neg (by simp [toLeBytes_length]), fromLeBytes_toLeBytes]
    have h256 : (256 : Nat) ^ 8 = 2 ^ 64 := by norm_num
    rw [h256, Nat.mod_eq_of_lt hv]
  | Bool b =>
    cases b <;> rfl
  | Str s =>
    show decode (0x23 :: (toLeBytes 4 ((utf8Encode s).length % 2 ^ 32) ++ utf8Encode s))
      = .ok (.Str s)
    rw [decode_str_frame _ (hstr s rfl), utf8DecodeLossy_utf8Encode s hv]
  | Char c =>
    have hc := hchar c rfl
    show decode [0x24, c % 256] = .ok (.Char c)
    simp only [decode, decode_type, List.length_cons, List.length_nil, List.headD]
    rw [if_neg (by omega), Nat.mod_eq_of_lt hc]

/-- Witness for the amended C1 at the concrete value `Int(-1)` (spec
scenario 1). -/
theorem roundtrip_amended_witness :
    decode (encode (.Int (-1))) = .ok (.Int (-1)) :=
  roundtrip_amended (.Int (-1)) (by decide)
    (fun _ h => Value.noConfusion h) (fun _ h => Value.noConfusion h)

/-- C10: for every value whose `Str` payload (if any) is under `2^32`
UTF-8 bytes, decoding the encoding succeeds with some value — the emitted
tag is always valid and the emitted payload always passes the size check —
including `Char` scalars above 255, where the recovered value may differ. -/
theorem decode_encode_total (v : Value)
    (hstr : ∀ s, v = .Str s → (utf8Encode s).length < 2 ^ 32) :
    ∃ w, decode (encode v) = .ok w := by
  cases v with
  | Int i => exact ⟨_, rfl⟩
  | Float bits => exact ⟨_, rfl⟩
  | Bool b => cases b <;> exact ⟨_, rfl⟩
  | Str s =>
    exact ⟨.Str (utf8DecodeLossy (utf8Encode s)), decode_str_frame _ (hstr s rfl)⟩
  | Char c => exact ⟨_, rfl⟩

/-- Witness for C10 at `Char(0x100)`, a scalar above 255. -/
theorem decode_encode_total_witness :
    ∃ w, decode (encode (.Char 0x100)) = .ok w :=
  decode_encode_total (.Char 0x100) (fun _ h => Value.noConfusion h)

end Cog
